import Mathlib

/-!
Verification of the legal-citation matching core of the repository
(`src/tasks/updated_doc_retriever.py` and `src/tasks/doc_retriever.py`).

The Python code is shallowly embedded: rows and mentions are records of
strings, floating-point scores are modelled as rationals, Python's
`str.lower` is modelled by ASCII character lowering applied uniformly to
both sides of every comparison (as the source lowers both sides), and the
external TF-IDF cosine similarity (`compute_similarity`) is an arbitrary
function parameter `sim`.  Python's stable `sorted(..., reverse=True)` is
modelled by `List.insertionSort` with the corresponding total preorder,
which is stable in the same sense.
-/

namespace LegalQA

/-- Model of Python `str.lower` (character-wise lowering of the string's
characters); the source applies `.lower()` to both sides of every
comparison, so only uniformity matters for the embedded comparisons. -/
def pyLower (s : String) : String := ⟨s.data.map Char.toLower⟩

/-- Space-joining of tokens, modelling `' '.join(...)`. -/
def joinSpace (l : List String) : String := String.intercalate " " l

/-- A structured citation mention, as produced by
`CombinedDocumentSearch.extract_document_mentions` (one dict per regex
match). -/
structure Mention where
  mention : String
  document_type : String
  document_number : String
  issue_year : String
  issuer_body : String
  extra_info : String
deriving DecidableEq

/-- One row of the document registry DataFrame loaded by
`CombinedDocumentSearch.load_documents`. -/
structure DocRow where
  document_type : String
  document_number : String
  issue_year : String
  issuer_body : String
  full_name : String
  document_id : String
deriving DecidableEq

/-- The five mention fields scored by `match_documents`, in the order of
the `base_confidences` dict of the source. -/
inductive Field
  | documentType
  | documentNumber
  | issueYear
  | issuerBody
  | extraInfo
deriving DecidableEq

/-- The five fields in source (dict-insertion) order. -/
def allFields : List Field :=
  [.documentType, .documentNumber, .issueYear, .issuerBody, .extraInfo]

/-- The four structured fields iterated by the prefilter and the scoring
loop of `match_documents` (the `for prop in [...]` lists). -/
def structuredFields : List Field :=
  [.documentType, .documentNumber, .issueYear, .issuerBody]

/-- Access a mention's field by name, modelling the source's
`locals()[prop]` indirection. -/
def Mention.fieldVal (m : Mention) : Field → String
  | .documentType => m.document_type
  | .documentNumber => m.document_number
  | .issueYear => m.issue_year
  | .issuerBody => m.issuer_body
  | .extraInfo => m.extra_info

/-- Access a registry row's structured field (`doc[prop]`); `extraInfo` is
never looked up on rows by the source. -/
def DocRow.fieldVal (d : DocRow) : Field → String
  | .documentType => d.document_type
  | .documentNumber => d.document_number
  | .issueYear => d.issue_year
  | .issuerBody => d.issuer_body
  | .extraInfo => ""

/-- The `reliability_factors` dict of `match_documents`. -/
def reliabilityFactor : Field → ℚ
  | .documentType => 8/10
  | .documentNumber => 9/10
  | .issueYear => 7/10
  | .issuerBody => 8/10
  | .extraInfo => 6/10

/-- The `base_confidences` dict: `1.0 if <field> else 0.0`, Python
truthiness of a string being non-emptiness. -/
def baseConfidence (m : Mention) (f : Field) : ℚ :=
  if m.fieldVal f = "" then 0 else 1

/-- `confidence = base_confidences[prop] * reliability_factors[prop]`. -/
def confidenceScore (m : Mention) (f : Field) : ℚ :=
  baseConfidence m f * reliabilityFactor f

/-- `total_confidence`: the sum of the per-field confidence scores. -/
def totalConfidence (m : Mention) : ℚ :=
  (allFields.map (confidenceScore m)).sum

/-- `dynamic_weights[prop]`: normalized confidence, `0.0` when the total
is not positive. -/
def dynamicWeight (m : Mention) (f : Field) : ℚ :=
  if 0 < totalConfidence m then confidenceScore m f / totalConfidence m else 0

/-- The `equivalent_document_types` table together with the
`.get(value, [value])` access used by `match_documents` (the argument is
already lowercased by the caller, as in the source). -/
def equivalentDocumentTypes (v : String) : List String :=
  if v = "luật" ∨ v = "bộ luật" ∨ v = "pháp lệnh" then
    ["luật", "bộ luật", "pháp lệnh"]
  else [v]

/-- Per-field agreement test between a mention and a row, exactly the
condition used both by the prefilter and by the scoring loop of
`match_documents`: `document_type` membership in the equivalence class,
case-normalized equality for the other structured fields. -/
def fieldMatches (m : Mention) (d : DocRow) : Field → Bool
  | .documentType =>
      (equivalentDocumentTypes (pyLower m.document_type)).contains
        (pyLower d.document_type)
  | .documentNumber => pyLower d.document_number == pyLower m.document_number
  | .issueYear => pyLower d.issue_year == pyLower m.issue_year
  | .issuerBody => pyLower d.issuer_body == pyLower m.issuer_body
  | .extraInfo => true

/-- The `combined_condition` of `match_documents`: starting from all-true,
conjoin the agreement condition for every present structured field (an
absent field contributes no condition). -/
def prefilterCond (m : Mention) (d : DocRow) : Bool :=
  structuredFields.foldl
    (fun acc f => acc && (if m.fieldVal f = "" then true else fieldMatches m d f))
    true

/-- `potential_matches = self.documents[combined_condition]`. -/
def potentialMatches (m : Mention) (docs : List DocRow) : List DocRow :=
  docs.filter (fun d => prefilterCond m d)

/-- The structured part of `match_score`: for each present structured
field add the dynamic weight on agreement and subtract it on mismatch;
absent fields are skipped. -/
def structuredScore (m : Mention) (d : DocRow) : ℚ :=
  structuredFields.foldl
    (fun acc f =>
      if m.fieldVal f = "" then acc
      else if fieldMatches m d f then acc + dynamicWeight m f
      else acc - dynamicWeight m f)
    0

/-- Full `match_score` of one row: the structured part plus, when
`extra_info` is present, the extra-info weight times the similarity of the
lowered `extra_info` and the row's lowered `Full Name` (`sim` models the
external `compute_similarity`). -/
def rowScore (sim : String → String → ℚ) (m : Mention) (d : DocRow) : ℚ :=
  if m.extra_info = "" then structuredScore m d
  else structuredScore m d +
    dynamicWeight m .extraInfo * sim (pyLower m.extra_info) (pyLower d.full_name)

/-- Python's stable `sorted(l, key, reverse=True)`: a stable sort putting
larger keys first; equal keys keep their input order. -/
def sortDesc {α β : Type} [LinearOrder β] (key : α → β) (l : List α) : List α :=
  l.insertionSort (fun a b => key b ≤ key a)

/-- The candidate rows kept by the scoring loop of `match_documents`: rows
of `potential_matches` whose score reaches the cutoff, in row order, each
emitted as a `(Full Name, Document_ID, score)` triple. -/
def keptCandidates (sim : String → String → ℚ) (m : Mention) (cutoff : ℚ)
    (rows : List DocRow) : List (String × String × ℚ) :=
  (rows.filter (fun d => cutoff ≤ rowScore sim m d)).map
    (fun d => (d.full_name, d.document_id, rowScore sim m d))

/-- `CombinedDocumentSearch.match_documents`: prefilter, score, keep rows
with `match_score >= cutoff`, sort by score descending (stably), truncate
to `top_n`.  The returned value is the candidate list stored under the
mention key of the returned dict. -/
def matchDocuments (sim : String → String → ℚ) (docs : List DocRow) (m : Mention)
    (top_n : Nat) (cutoff : ℚ) : List (String × String × ℚ) :=
  (sortDesc (fun t => t.2.2) (keptCandidates sim m cutoff (potentialMatches m docs))).take top_n

/-- The maximum score `match_documents` can assign for a given mention:
every weight collected positively (with similarity at its maximum `1`),
i.e. the sum of all dynamic weights. -/
def maxAttainableScore (m : Mention) : ℚ :=
  (allFields.map (dynamicWeight m)).sum

/-! ### Arithmetic helper lemmas about the dynamic weights -/

theorem confidenceScore_nonneg (m : Mention) (f : Field) : 0 ≤ confidenceScore m f := by
  unfold confidenceScore baseConfidence
  split <;> cases f <;> norm_num [reliabilityFactor]

theorem confidenceScore_pos (m : Mention) (f : Field) (h : m.fieldVal f ≠ "") :
    0 < confidenceScore m f := by
  unfold confidenceScore baseConfidence
  rw [if_neg h]
  cases f <;> norm_num [reliabilityFactor]

theorem totalConfidence_eq (m : Mention) :
    totalConfidence m =
      confidenceScore m .documentType + confidenceScore m .documentNumber +
      confidenceScore m .issueYear + confidenceScore m .issuerBody +
      confidenceScore m .extraInfo := by
  simp [totalConfidence, allFields]
  ring

theorem totalConfidence_nonneg (m : Mention) : 0 ≤ totalConfidence m := by
  rw [totalConfidence_eq]
  have h1 := confidenceScore_nonneg m .documentType
  have h2 := confidenceScore_nonneg m .documentNumber
  have h3 := confidenceScore_nonneg m .issueYear
  have h4 := confidenceScore_nonneg m .issuerBody
  have h5 := confidenceScore_nonneg m .extraInfo
  linarith

theorem totalConfidence_pos (m : Mention) (f : Field) (h : m.fieldVal f ≠ "") :
    0 < totalConfidence m := by
  have hp := confidenceScore_pos m f h
  have h1 := confidenceScore_nonneg m .documentType
  have h2 := confidenceScore_nonneg m .documentNumber
  have h3 := confidenceScore_nonneg m .issueYear
  have h4 := confidenceScore_nonneg m .issuerBody
  have h5 := confidenceScore_nonneg m .extraInfo
  rw [totalConfidence_eq]
  cases f <;> linarith

theorem sum_dynamicWeights (m : Mention) (h : 0 < totalConfidence m) :
    (allFields.map (dynamicWeight m)).sum = 1 := by
  have hne : totalConfidence m ≠ 0 := ne_of_gt h
  simp [allFields, dynamicWeight, if_pos h]
  rw [div_add_div_same, div_add_div_same, div_add_div_same, div_add_div_same]
  rw [div_eq_one_iff_eq hne, totalConfidence_eq]
  ring

theorem dynamicWeight_absent (m : Mention) (f : Field) (h : m.fieldVal f = "") :
    dynamicWeight m f = 0 := by
  unfold dynamicWeight confidenceScore baseConfidence
  rw [if_pos h]
  split <;> simp

theorem dynamicWeight_nonneg (m : Mention) (f : Field) : 0 ≤ dynamicWeight m f := by
  unfold dynamicWeight
  split
  · exact div_nonneg (confidenceScore_nonneg m f) (totalConfidence_nonneg m)
  · exact le_refl 0

/-! ### Lemmas about the stable descending sort -/

theorem mem_sortDesc {α β : Type} [LinearOrder β] (key : α → β) (l : List α) (x : α) :
    x ∈ sortDesc key l ↔ x ∈ l :=
  List.mem_insertionSort _

theorem sortDesc_sorted {α β : Type} [LinearOrder β] (key : α → β) (l : List α) :
    (sortDesc key l).Pairwise (fun a b => key b ≤ key a) := by
  haveI h1 : IsTotal α (fun a b => key b ≤ key a) := ⟨fun a b => le_total (key b) (key a)⟩
  haveI h2 : IsTrans α (fun a b => key b ≤ key a) :=
    ⟨fun _ _ _ hab hbc => le_trans hbc hab⟩
  exact List.sorted_insertionSort _ l

theorem filter_orderedInsert {α β : Type} [LinearOrder β] (key : α → β) (c : β)
    (x : α) (l : List α) :
    (List.orderedInsert (fun a b => key b ≤ key a) x l).filter (fun a => key a == c) =
      if key x = c then x :: l.filter (fun a => key a == c)
      else l.filter (fun a => key a == c) := by
  induction l with
  | nil =>
      by_cases h : key x = c
      · have hb : (key x == c) = true := beq_iff_eq.mpr h
        simp [List.orderedInsert, List.filter_cons, hb, h]
      · have hb : (key x == c) = false := beq_eq_false_iff_ne.mpr h
        simp [List.orderedInsert, List.filter_cons, hb, h]
  | cons y ys ih =>
      by_cases hxy : key y ≤ key x
      · rw [show List.orderedInsert (fun a b => key b ≤ key a) x (y :: ys) =
            x :: y :: ys from if_pos hxy]
        by_cases h : key x = c
        · have hb : (key x == c) = true := beq_iff_eq.mpr h
          simp [List.filter_cons, hb, h]
        · have hb : (key x == c) = false := beq_eq_false_iff_ne.mpr h
          simp [List.filter_cons, hb, h]
      · rw [show List.orderedInsert (fun a b => key b ≤ key a) x (y :: ys) =
            y :: List.orderedInsert (fun a b => key b ≤ key a) x ys from if_neg hxy]
        by_cases h : key x = c
        · have hy : ¬ (key y = c) := by
            intro hc
            exact hxy (le_of_eq (hc.trans h.symm))
          have hby : (key y == c) = false := beq_eq_false_iff_ne.mpr hy
          simp [List.filter_cons, hby, ih, h]
        · have hb : (key x == c) = false := beq_eq_false_iff_ne.mpr h
          by_cases hy : key y = c
          · have hby : (key y == c) = true := beq_iff_eq.mpr hy
            simp [List.filter_cons, hby, ih, h]
          · have hby : (key y == c) = false := beq_eq_false_iff_ne.mpr hy
            simp [List.filter_cons, hby, ih, h]

theorem filter_sortDesc {α β : Type} [LinearOrder β] (key : α → β) (c : β) (l : List α) :
    (sortDesc key l).filter (fun a => key a == c) = l.filter (fun a => key a == c) := by
  induction l with
  | nil => rfl
  | cons x xs ih =>
      show (List.orderedInsert _ x (List.insertionSort _ xs)).filter _ = _
      rw [filter_orderedInsert]
      by_cases h : key x = c
      · rw [if_pos h]
        rw [show List.insertionSort (fun a b => key b ≤ key a) xs = sortDesc key xs from rfl]
        rw [ih]
        have hb : (key x == c) = true := beq_iff_eq.mpr h
        simp [List.filter_cons, hb]
      · rw [if_neg h]
        rw [show List.insertionSort (fun a b => key b ≤ key a) xs = sortDesc key xs from rfl]
        rw [ih]
        have hb : (key x == c) = false := beq_eq_false_iff_ne.mpr h
        simp [List.filter_cons, hb]

/-! ### Characterization of the prefilter and of emitted candidates -/

theorem cond_and_ite (acc : Bool) (P : Prop) [Decidable P] (b : Bool) :
    (acc && (if P then true else b)) = true ↔ (acc = true ∧ (¬ P → b = true)) := by
  by_cases hP : P
  · simp [hP]
  · simp [hP]

theorem prefilterCond_true_iff (m : Mention) (d : DocRow) :
    prefilterCond m d = true ↔
      ∀ f ∈ structuredFields, m.fieldVal f ≠ "" → fieldMatches m d f = true := by
  simp only [prefilterCond, structuredFields, List.foldl]
  rw [cond_and_ite, cond_and_ite, cond_and_ite, cond_and_ite]
  constructor
  · rintro ⟨⟨⟨⟨-, h1⟩, h2⟩, h3⟩, h4⟩ f hf hne
    fin_cases hf
    · exact h1 hne
    · exact h2 hne
    · exact h3 hne
    · exact h4 hne
  · intro h
    refine ⟨⟨⟨⟨rfl, ?_⟩, ?_⟩, ?_⟩, ?_⟩
    · exact h .documentType (by decide)
    · exact h .documentNumber (by decide)
    · exact h .issueYear (by decide)
    · exact h .issuerBody (by decide)

theorem mem_matchDocuments (sim : String → String → ℚ) (docs : List DocRow)
    (m : Mention) (top_n : Nat) (cutoff : ℚ) (t : String × String × ℚ)
    (ht : t ∈ matchDocuments sim docs m top_n cutoff) :
    ∃ e ∈ docs, prefilterCond m e = true ∧ cutoff ≤ rowScore sim m e ∧
      t = (e.full_name, e.document_id, rowScore sim m e) := by
  have h1 : t ∈ sortDesc (fun t => t.2.2)
      (keptCandidates sim m cutoff (potentialMatches m docs)) :=
    List.take_subset _ _ ht
  rw [mem_sortDesc] at h1
  rw [keptCandidates, List.mem_map] at h1
  obtain ⟨e, he, rfl⟩ := h1
  rw [List.mem_filter] at he
  obtain ⟨hpm, hsc⟩ := he
  rw [potentialMatches, List.mem_filter] at hpm
  exact ⟨e, hpm.1, hpm.2, by simpa using hsc, rfl⟩

theorem score_step (m : Mention) (d : DocRow) (acc : ℚ) (f : Field)
    (h : m.fieldVal f ≠ "" → fieldMatches m d f = true) :
    (if m.fieldVal f = "" then acc
     else if fieldMatches m d f then acc + dynamicWeight m f
     else acc - dynamicWeight m f) = acc + dynamicWeight m f := by
  by_cases he : m.fieldVal f = ""
  · rw [if_pos he, dynamicWeight_absent m f he, add_zero]
  · rw [if_neg he, if_pos (h he)]

theorem structuredScore_of_prefilter (m : Mention) (d : DocRow)
    (h : ∀ f ∈ structuredFields, m.fieldVal f ≠ "" → fieldMatches m d f = true) :
    structuredScore m d =
      dynamicWeight m .documentType + dynamicWeight m .documentNumber +
      dynamicWeight m .issueYear + dynamicWeight m .issuerBody := by
  simp only [structuredScore, structuredFields, List.foldl]
  rw [score_step m d _ .documentType (h .documentType (by decide)),
    score_step m d _ .documentNumber (h .documentNumber (by decide)),
    score_step m d _ .issueYear (h .issueYear (by decide)),
    score_step m d _ .issuerBody (h .issuerBody (by decide))]
  ring

/-! ### Concrete data used by the witness theorems -/

/-- A trivial similarity function (the similarity is irrelevant to the
witnessed facts, which use mentions without `extra_info`). -/
def simZero : String → String → ℚ := fun _ _ => 0

/-- A concrete mention with `document_type` and `document_number` present. -/
def mentionW : Mention :=
  { mention := "luật 91", document_type := "luật", document_number := "91",
    issue_year := "", issuer_body := "", extra_info := "" }

/-- A concrete registry row agreeing with `mentionW` on both present
fields (`bộ luật` is in the equivalence class of `luật`). -/
def rowW : DocRow :=
  { document_type := "bộ luật", document_number := "91", issue_year := "2015",
    issuer_body := "qh", full_name := "bộ luật dân sự", document_id := "91/2015/qh13" }

theorem rowScoreW : rowScore simZero mentionW rowW = 1 := by
  have hpf : prefilterCond mentionW rowW = true := by decide
  have htot : 0 < totalConfidence mentionW :=
    totalConfidence_pos mentionW .documentType (by decide)
  have hsum := sum_dynamicWeights mentionW htot
  simp only [allFields, List.map, List.sum_cons, List.sum_nil] at hsum
  have hx : dynamicWeight mentionW .extraInfo = 0 :=
    dynamicWeight_absent mentionW .extraInfo (by decide)
  have hy : dynamicWeight mentionW .issueYear = 0 :=
    dynamicWeight_absent mentionW .issueYear (by decide)
  have hz : dynamicWeight mentionW .issuerBody = 0 :=
    dynamicWeight_absent mentionW .issuerBody (by decide)
  rw [rowScore, if_pos (show mentionW.extra_info = "" from rfl),
    structuredScore_of_prefilter mentionW rowW ((prefilterCond_true_iff mentionW rowW).mp hpf)]
  linarith

theorem matchDocumentsW :
    matchDocuments simZero [rowW] mentionW 2 (1/2) =
      [("bộ luật dân sự", "91/2015/qh13", (1 : ℚ))] := by
  have hpf : prefilterCond mentionW rowW = true := by decide
  simp [matchDocuments, keptCandidates, potentialMatches, hpf, rowScoreW,
    sortDesc, List.insertionSort, List.orderedInsert, List.filter_cons]
  rw [if_pos (show (2:ℚ)⁻¹ ≤ 1 from by norm_num)]
  simp [List.insertionSort, List.orderedInsert, rowScoreW]
  exact ⟨rfl, rfl⟩

/-! ### Claim theorems -/

/-- C1: for every mention scored by `match_documents`, the per-field
dynamic weights sum to exactly 1 whenever at least one of the five fields
is present, and every dynamic weight is 0 when all five fields are
absent. -/
theorem dynamic_weights_normalized (m : Mention) :
    ((∃ f ∈ allFields, m.fieldVal f ≠ "") →
      (allFields.map (dynamicWeight m)).sum = 1) ∧
    ((∀ f ∈ allFields, m.fieldVal f = "") →
      ∀ f ∈ allFields, dynamicWeight m f = 0) := by
  constructor
  · rintro ⟨f, -, hne⟩
    exact sum_dynamicWeights m (totalConfidence_pos m f hne)
  · intro h f hf
    exact dynamicWeight_absent m f (h f hf)

theorem dynamic_weights_normalized_witness :
    mentionW.fieldVal .documentType ≠ "" ∧
    (allFields.map (dynamicWeight mentionW)).sum = 1 := by
  have h : mentionW.fieldVal .documentType ≠ "" := by decide
  exact ⟨h, (dynamic_weights_normalized mentionW).1 ⟨.documentType, by decide, h⟩⟩

/-- C2: every candidate emitted by `match_documents` has score at least
the cutoff, the emitted list is sorted by score in descending order, and
its length is at most `top_n` (rows scoring below the cutoff never
appear). -/
theorem match_documents_emission_invariants (sim : String → String → ℚ)
    (docs : List DocRow) (m : Mention) (top_n : Nat) (cutoff : ℚ) :
    (∀ t ∈ matchDocuments sim docs m top_n cutoff, cutoff ≤ t.2.2) ∧
    (matchDocuments sim docs m top_n cutoff).Pairwise (fun a b => b.2.2 ≤ a.2.2) ∧
    (matchDocuments sim docs m top_n cutoff).length ≤ top_n := by
  refine ⟨?_, ?_, ?_⟩
  · intro t ht
    obtain ⟨e, -, -, hsc, rfl⟩ := mem_matchDocuments sim docs m top_n cutoff t ht
    exact hsc
  · exact List.Pairwise.sublist (List.take_sublist _ _) (sortDesc_sorted _ _)
  · rw [matchDocuments]
    exact List.length_take_le _ _

theorem match_documents_emission_invariants_witness :
    ("bộ luật dân sự", "91/2015/qh13", (1 : ℚ)) ∈
      matchDocuments simZero [rowW] mentionW 2 (1/2) ∧
    (1 : ℚ)/2 ≤ 1 := by
  have hmem : ("bộ luật dân sự", "91/2015/qh13", (1 : ℚ)) ∈
      matchDocuments simZero [rowW] mentionW 2 (1/2) := by
    rw [matchDocumentsW]
    exact List.mem_singleton.mpr rfl
  exact ⟨hmem,
    (match_documents_emission_invariants simZero [rowW] mentionW 2 (1/2)).1 _ hmem⟩

/-- C3: the prefilter of `match_documents` selects exactly the registry
rows agreeing with every present structured field of the mention:
`document_type` through the fixed equivalence class, the other fields by
case-normalized equality; an absent mention field excludes no row. -/
theorem prefilter_selects_agreeing_rows (m : Mention) (docs : List DocRow) (d : DocRow) :
    d ∈ potentialMatches m docs ↔
      d ∈ docs ∧
      (m.document_type ≠ "" →
        pyLower d.document_type ∈ equivalentDocumentTypes (pyLower m.document_type)) ∧
      (m.document_number ≠ "" → pyLower d.document_number = pyLower m.document_number) ∧
      (m.issue_year ≠ "" → pyLower d.issue_year = pyLower m.issue_year) ∧
      (m.issuer_body ≠ "" → pyLower d.issuer_body = pyLower m.issuer_body) := by
  rw [potentialMatches, List.mem_filter]
  constructor
  · rintro ⟨hd, hpf⟩
    have h := (prefilterCond_true_iff m d).mp hpf
    refine ⟨hd, fun hne => ?_, fun hne => ?_, fun hne => ?_, fun hne => ?_⟩
    · have := h .documentType (by decide) hne
      simpa [fieldMatches] using this
    · have := h .documentNumber (by decide) hne
      simpa [fieldMatches] using this
    · have := h .issueYear (by decide) hne
      simpa [fieldMatches] using this
    · have := h .issuerBody (by decide) hne
      simpa [fieldMatches] using this
  · rintro ⟨hd, h1, h2, h3, h4⟩
    refine ⟨hd, (prefilterCond_true_iff m d).mpr ?_⟩
    intro f hf hne
    fin_cases hf
    · simpa [fieldMatches] using h1 hne
    · simpa [fieldMatches] using h2 hne
    · simpa [fieldMatches] using h3 hne
    · simpa [fieldMatches] using h4 hne

theorem prefilter_selects_agreeing_rows_witness :
    rowW ∈ potentialMatches mentionW [rowW] :=
  (prefilter_selects_agreeing_rows mentionW [rowW] rowW).mpr
    ⟨by simp, fun _ => by decide, fun _ => by decide,
      fun hne => absurd rfl hne, fun hne => absurd rfl hne⟩

/-- C4: a registry row disagreeing with the mention on a present
structured field whose dynamic weight alone exceeds the margin between the
maximum attainable score and the cutoff is never emitted by
`match_documents` (indeed it already fails the prefilter, and every
emitted candidate comes from a row passing the prefilter). -/
theorem strong_mismatch_never_emitted (sim : String → String → ℚ)
    (docs : List DocRow) (m : Mention) (d : DocRow) (top_n : Nat) (cutoff : ℚ)
    (f : Field) (hf : f ∈ structuredFields) (hpres : m.fieldVal f ≠ "")
    (hmis : fieldMatches m d f = false)
    (hw : maxAttainableScore m - cutoff < dynamicWeight m f) :
    prefilterCond m d = false ∧
    ∀ t ∈ matchDocuments sim docs m top_n cutoff,
      ∃ e ∈ docs, prefilterCond m e = true ∧ e ≠ d ∧
        t = (e.full_name, e.document_id, rowScore sim m e) := by
  have hpfd : prefilterCond m d = false := by
    cases hpc : prefilterCond m d with
    | false => rfl
    | true =>
        have := (prefilterCond_true_iff m d).mp hpc f hf hpres
        rw [this] at hmis
        exact absurd hmis (by simp)
  refine ⟨hpfd, fun t ht => ?_⟩
  obtain ⟨e, he, hpe, -, rfl⟩ := mem_matchDocuments sim docs m top_n cutoff t ht
  refine ⟨e, he, hpe, fun hed => ?_, rfl⟩
  rw [hed, hpfd] at hpe
  exact absurd hpe (by simp)

/-- A concrete mention whose only present field is `document_type`. -/
def mention4 : Mention :=
  { mention := "nghị định", document_type := "nghị định", document_number := "",
    issue_year := "", issuer_body := "", extra_info := "" }

/-- A concrete registry row whose type disagrees with `mention4`. -/
def row4 : DocRow :=
  { document_type := "luật", document_number := "55", issue_year := "2014",
    issuer_body := "qh", full_name := "luật xây dựng", document_id := "50/2014/qh13" }

theorem strong_mismatch_never_emitted_witness :
    (mention4.fieldVal .documentType ≠ "" ∧
     fieldMatches mention4 row4 .documentType = false ∧
     maxAttainableScore mention4 - 1/2 < dynamicWeight mention4 .documentType) ∧
    prefilterCond mention4 row4 = false := by
  have hpres : mention4.fieldVal .documentType ≠ "" := by decide
  have hmis : fieldMatches mention4 row4 .documentType = false := by decide
  have htot : 0 < totalConfidence mention4 := totalConfidence_pos mention4 .documentType hpres
  have hsum := sum_dynamicWeights mention4 htot
  simp only [allFields, List.map, List.sum_cons, List.sum_nil] at hsum
  have h2 : dynamicWeight mention4 .documentNumber = 0 :=
    dynamicWeight_absent mention4 .documentNumber (by decide)
  have h3 : dynamicWeight mention4 .issueYear = 0 :=
    dynamicWeight_absent mention4 .issueYear (by decide)
  have h4 : dynamicWeight mention4 .issuerBody = 0 :=
    dynamicWeight_absent mention4 .issuerBody (by decide)
  have h5 : dynamicWeight mention4 .extraInfo = 0 :=
    dynamicWeight_absent mention4 .extraInfo (by decide)
  have hmax : maxAttainableScore mention4 = 1 := by
    rw [maxAttainableScore]
    simp only [allFields, List.map, List.sum_cons, List.sum_nil]
    linarith
  have hw : maxAttainableScore mention4 - 1/2 < dynamicWeight mention4 .documentType := by
    rw [hmax]
    have hw1 : dynamicWeight mention4 .documentType = 1 := by linarith
    rw [hw1]
    norm_num
  exact ⟨⟨hpres, hmis, hw⟩,
    (strong_mismatch_never_emitted simZero [row4] mention4 row4 2 (1/2)
      .documentType (by decide) hpres hmis hw).1⟩

/-- C7: `match_documents` is total on mentions with any subset of fields
absent; a fully degenerate mention scores 0 against every row and (for a
positive cutoff, the default being 0.5) yields an empty candidate list,
and a mention matching no registry row also yields an empty list. -/
theorem degenerate_and_unmatched_yield_empty (sim : String → String → ℚ)
    (docs : List DocRow) (m : Mention) (top_n : Nat) (cutoff : ℚ) :
    ((∀ f ∈ allFields, m.fieldVal f = "") →
      (∀ d, rowScore sim m d = 0) ∧
      (0 < cutoff → matchDocuments sim docs m top_n cutoff = [])) ∧
    (potentialMatches m docs = [] → matchDocuments sim docs m top_n cutoff = []) := by
  constructor
  · intro h
    have h1 := h .documentType (by decide)
    have h2 := h .documentNumber (by decide)
    have h3 := h .issueYear (by decide)
    have h4 := h .issuerBody (by decide)
    have h5 := h .extraInfo (by decide)
    have h5x : m.extra_info = "" := h5
    have hscore : ∀ d, rowScore sim m d = 0 := by
      intro d
      rw [rowScore, if_pos h5x]
      simp [structuredScore, structuredFields, h1, h2, h3, h4]
    refine ⟨hscore, fun hc => ?_⟩
    rw [matchDocuments]
    have hkept : keptCandidates sim m cutoff (potentialMatches m docs) = [] := by
      rw [keptCandidates]
      have hfil : List.filter (fun d => decide (cutoff ≤ rowScore sim m d))
          (potentialMatches m docs) = [] := by
        apply List.filter_eq_nil_iff.mpr
        intro d hd
        simp only [decide_eq_true_eq, hscore d]
        intro hle
        linarith
      rw [hfil]
      rfl
    rw [hkept]
    simp [sortDesc, List.insertionSort]
  · intro h
    rw [matchDocuments, h]
    simp [sortDesc, keptCandidates, List.insertionSort]

/-- A mention with every field absent. -/
def mentionEmpty : Mention :=
  { mention := "", document_type := "", document_number := "",
    issue_year := "", issuer_body := "", extra_info := "" }

theorem degenerate_and_unmatched_yield_empty_witness :
    (∀ f ∈ allFields, mentionEmpty.fieldVal f = "") ∧ (0 : ℚ) < 1/2 ∧
    matchDocuments simZero [rowW] mentionEmpty 2 (1/2) = [] := by
  have h : ∀ f ∈ allFields, mentionEmpty.fieldVal f = "" := by decide
  exact ⟨h, by norm_num,
    ((degenerate_and_unmatched_yield_empty simZero [rowW] mentionEmpty 2 (1/2)).1 h).2
      (by norm_num)⟩

/-- C9: for a mention without `extra_info` but with at least one present
structured field, every candidate emitted by `match_documents` scores
exactly 1: the prefilter already enforces agreement on every present
field, so the penalty branch never fires and the score is the full sum of
the normalized weights. -/
theorem no_extra_info_candidates_score_one (sim : String → String → ℚ)
    (docs : List DocRow) (m : Mention) (top_n : Nat) (cutoff : ℚ)
    (hx : m.extra_info = "") (hp : ∃ f ∈ structuredFields, m.fieldVal f ≠ "") :
    ∀ t ∈ matchDocuments sim docs m top_n cutoff, t.2.2 = 1 := by
  obtain ⟨f0, -, hne⟩ := hp
  have htot : 0 < totalConfidence m := totalConfidence_pos m f0 hne
  have hsum := sum_dynamicWeights m htot
  simp only [allFields, List.map, List.sum_cons, List.sum_nil] at hsum
  have hwx : dynamicWeight m .extraInfo = 0 :=
    dynamicWeight_absent m .extraInfo hx
  intro t ht
  obtain ⟨e, -, hpe, -, rfl⟩ := mem_matchDocuments sim docs m top_n cutoff t ht
  show rowScore sim m e = 1
  rw [rowScore, if_pos hx,
    structuredScore_of_prefilter m e ((prefilterCond_true_iff m e).mp hpe)]
  linarith

theorem no_extra_info_candidates_score_one_witness :
    mentionW.extra_info = "" ∧ mentionW.fieldVal .documentType ≠ "" ∧
    ("bộ luật dân sự", "91/2015/qh13", (1 : ℚ)).2.2 = 1 := by
  have hx : mentionW.extra_info = "" := rfl
  have hne : mentionW.fieldVal .documentType ≠ "" := by decide
  have hmem : ("bộ luật dân sự", "91/2015/qh13", (1 : ℚ)) ∈
      matchDocuments simZero [rowW] mentionW 2 (1/2) := by
    rw [matchDocumentsW]
    exact List.mem_singleton.mpr rfl
  exact ⟨hx, hne,
    no_extra_info_candidates_score_one simZero [rowW] mentionW 2 (1/2) hx
      ⟨.documentType, by decide, hne⟩ _ hmem⟩

/-! ### Trigram tally and ranking (`DocRetriever.match_documents_comprehensive`) -/

/-- `extract_trigrams`: all windows of 3 consecutive tokens, space-joined
(`' '.join(tokens[i:i+3])` for `i in range(len(tokens) - 2)`). -/
def extractTrigrams (tokens : List String) : List String :=
  (List.range (tokens.length - 2)).map (fun i => joinSpace ((tokens.drop i).take 3))

/-- One `candidate_docs[doc_id] += 1` step on an insertion-ordered tally;
a Python dict keeps insertion order, so a new key is appended at the end. -/
def bump (d : String) : List (String × Nat) → List (String × Nat)
  | [] => [(d, 1)]
  | (k, n) :: rest => if k = d then (k, n + 1) :: rest else (k, n) :: bump d rest

/-- The tally loop of `match_documents_comprehensive`: for each query
trigram found in the inverted index, bump every document id of its
posting list. -/
def tallyList (idx : List (String × List String)) (tgs : List String) :
    List (String × Nat) :=
  tgs.foldl
    (fun acc t =>
      match idx.lookup t with
      | some postings => postings.foldl (fun a d => bump d a) acc
      | none => acc)
    []

/-- `sorted_candidates`: the tally sorted by hit count descending with
Python's stable `sorted`, which keeps insertion order among ties. -/
def trigramQuery (idx : List (String × List String)) (tgs : List String) :
    List (String × Nat) :=
  sortDesc (fun p => p.2) (tallyList idx tgs)

/-- The total number of hits of document `d` over all posting lists of
the query's trigrams. -/
def hitCount (idx : List (String × List String)) (tgs : List String) (d : String) : Nat :=
  (tgs.map (fun t => ((idx.lookup t).getD []).count d)).sum

/-- The hit count recorded for `d` in a tally (0 when absent). -/
def countOf (l : List (String × Nat)) (d : String) : Nat :=
  (l.lookup d).getD 0

theorem countOf_bump_self (l : List (String × Nat)) (d : String) :
    countOf (bump d l) d = countOf l d + 1 := by
  induction l with
  | nil => simp [bump, countOf, List.lookup]
  | cons p rest ih =>
      obtain ⟨k, n⟩ := p
      by_cases h : k = d
      · subst h
        simp [bump, countOf, List.lookup]
      · have hbd : (d == k) = false := beq_eq_false_iff_ne.mpr (Ne.symm h)
        simp [bump, if_neg h, countOf, List.lookup, hbd] at ih ⊢
        exact ih

theorem countOf_bump_other (l : List (String × Nat)) (d e : String) (h : d ≠ e) :
    countOf (bump d l) e = countOf l e := by
  induction l with
  | nil =>
      have hbd : (e == d) = false := beq_eq_false_iff_ne.mpr (Ne.symm h)
      simp [bump, countOf, List.lookup, hbd]
  | cons p rest ih =>
      obtain ⟨k, n⟩ := p
      by_cases hk : k = d
      · subst hk
        have hbd : (e == k) = false := beq_eq_false_iff_ne.mpr (Ne.symm h)
        simp [bump, countOf, List.lookup, hbd]
      · by_cases he : e = k
        · subst he
          simp [bump, if_neg hk, countOf, List.lookup]
        · have hbd : (e == k) = false := beq_eq_false_iff_ne.mpr he
          simp [bump, if_neg hk, countOf, List.lookup, hbd] at ih ⊢
          exact ih

theorem countOf_bumpAll (ds : List String) (acc : List (String × Nat)) (e : String) :
    countOf (ds.foldl (fun a d => bump d a) acc) e = countOf acc e + ds.count e := by
  induction ds generalizing acc with
  | nil => simp
  | cons d ds ih =>
      rw [List.foldl_cons, ih (bump d acc)]
      by_cases h : d = e
      · subst h
        rw [countOf_bump_self]
        simp [List.count_cons]
        omega
      · rw [countOf_bump_other _ _ _ h]
        have hbd : (d == e) = false := beq_eq_false_iff_ne.mpr h
        simp [List.count_cons, hbd]

theorem countOf_tallyList (idx : List (String × List String)) (tgs : List String)
    (d : String) : countOf (tallyList idx tgs) d = hitCount idx tgs d := by
  suffices h : ∀ acc, countOf (tgs.foldl
      (fun acc t =>
        match idx.lookup t with
        | some postings => postings.foldl (fun a d => bump d a) acc
        | none => acc) acc) d = countOf acc d + hitCount idx tgs d by
    simpa [tallyList, countOf, List.lookup] using h []
  induction tgs with
  | nil => intro acc; simp [hitCount]
  | cons t ts ih =>
      intro acc
      rw [List.foldl_cons]
      cases hl : idx.lookup t with
      | none =>
          simp only [hl]
          rw [ih]
          simp [hitCount, hl]
      | some ps =>
          simp only [hl]
          rw [ih, countOf_bumpAll]
          simp [hitCount, hl]
          omega

theorem mem_of_countOf_pos (l : List (String × Nat)) (d : String)
    (h : 0 < countOf l d) : (d, countOf l d) ∈ l := by
  induction l with
  | nil => simp [countOf, List.lookup] at h
  | cons p rest ih =>
      obtain ⟨k, n⟩ := p
      by_cases hk : d = k
      · subst hk
        simp [countOf, List.lookup]
      · have hbd : (d == k) = false := beq_eq_false_iff_ne.mpr hk
        simp only [countOf, List.lookup, hbd] at h ⊢
        exact List.mem_cons_of_mem _ (ih h)

/-- The keys produced by a bump: unchanged when the key is already
present, appended at the end otherwise. -/
theorem bump_keys (d : String) (l : List (String × Nat)) :
    (bump d l).map Prod.fst =
      if d ∈ l.map Prod.fst then l.map Prod.fst else l.map Prod.fst ++ [d] := by
  induction l with
  | nil => simp [bump]
  | cons p rest ih =>
      obtain ⟨k, n⟩ := p
      by_cases h : k = d
      · subst h
        simp [bump]
      · simp only [bump, if_neg h, List.map_cons, ih]
        by_cases hd : d ∈ rest.map Prod.fst
        · simp [hd, Ne.symm h]
        · simp [hd, Ne.symm h]

/-- Invariant of a tally: keys are distinct and every recorded count is
positive. -/
def goodTally (l : List (String × Nat)) : Prop :=
  (l.map Prod.fst).Nodup ∧ ∀ p ∈ l, 1 ≤ p.2

theorem bump_values (l : List (String × Nat)) (d : String)
    (hv : ∀ p ∈ l, 1 ≤ p.2) : ∀ p ∈ bump d l, 1 ≤ p.2 := by
  induction l with
  | nil =>
      intro p hp
      simp [bump] at hp
      subst hp
      norm_num
  | cons q rest ih =>
      obtain ⟨k, n⟩ := q
      intro p hp
      by_cases hk : k = d
      · subst hk
        simp only [bump, if_pos rfl] at hp
        rcases List.mem_cons.mp hp with h1 | h1
        · subst h1
          have := hv (k, n) (List.mem_cons_self _ _)
          simpa using Nat.le_succ_of_le this
        · exact hv p (List.mem_cons_of_mem _ h1)
      · simp only [bump, if_neg hk] at hp
        rcases List.mem_cons.mp hp with h1 | h1
        · subst h1
          exact hv (k, n) (List.mem_cons_self _ _)
        · exact ih (fun q hq => hv q (List.mem_cons_of_mem _ hq)) p h1

theorem goodTally_bump (l : List (String × Nat)) (d : String) (h : goodTally l) :
    goodTally (bump d l) := by
  obtain ⟨hnd, hv⟩ := h
  refine ⟨?_, bump_values l d hv⟩
  rw [bump_keys]
  by_cases hd : d ∈ l.map Prod.fst
  · simpa [hd] using hnd
  · rw [if_neg hd]
    refine List.Nodup.append hnd (List.nodup_singleton d) ?_
    intro a ha hb
    rw [List.mem_singleton.mp hb] at ha
    exact hd ha

theorem goodTally_bumpAll (ds : List String) (acc : List (String × Nat))
    (h : goodTally acc) : goodTally (ds.foldl (fun a d => bump d a) acc) := by
  induction ds generalizing acc with
  | nil => simpa using h
  | cons d ds ih => exact ih _ (goodTally_bump _ _ h)

theorem goodTally_tallyList (idx : List (String × List String)) (tgs : List String) :
    goodTally (tallyList idx tgs) := by
  suffices h : ∀ acc, goodTally acc → goodTally (tgs.foldl
      (fun acc t =>
        match idx.lookup t with
        | some postings => postings.foldl (fun a d => bump d a) acc
        | none => acc) acc) from
    h [] ⟨List.nodup_nil, by simp⟩
  induction tgs with
  | nil => intro acc hacc; simpa using hacc
  | cons t ts ih =>
      intro acc hacc
      rw [List.foldl_cons]
      cases hl : idx.lookup t with
      | none => simpa only [hl] using ih acc hacc
      | some ps =>
          simp only [hl]
          exact ih _ (goodTally_bumpAll ps acc hacc)

theorem countOf_eq_of_mem (l : List (String × Nat)) (d : String) (n : Nat)
    (hnd : (l.map Prod.fst).Nodup) (hm : (d, n) ∈ l) : countOf l d = n := by
  induction l with
  | nil => simp at hm
  | cons p rest ih =>
      obtain ⟨k, v⟩ := p
      have hnd2 : k ∉ rest.map Prod.fst ∧ (rest.map Prod.fst).Nodup :=
        List.nodup_cons.mp (by simpa using hnd)
      rcases List.mem_cons.mp hm with h1 | h1
      · have h1a : d = k := congrArg Prod.fst h1
        have h1b : n = v := congrArg Prod.snd h1
        subst h1a
        subst h1b
        simp [countOf, List.lookup]
      · have hk : d ≠ k := by
          intro hdk
          subst hdk
          exact hnd2.1 (List.mem_map.mpr ⟨(d, n), h1, rfl⟩)
        have hbd : (d == k) = false := beq_eq_false_iff_ne.mpr hk
        simp only [countOf, List.lookup, hbd]
        exact ih hnd2.2 h1

/-- Lexicographic order on character lists, used only to state the
claimed lexical tie-break on document ids. -/
def lexLe : List Char → List Char → Bool
  | [], _ => true
  | _ :: _, [] => false
  | a :: as, b :: bs => if a < b then true else if b < a then false else lexLe as bs

/-- Lexical order on strings (by code points). -/
def strLexLe (a b : String) : Bool := lexLe a.data b.data

/-- The ordering claimed for `sorted_candidates`: hit count strictly
descending, with ties between equal hit counts broken by document_id
lexical order. -/
def countLexOrdered (l : List (String × Nat)) : Prop :=
  l.Pairwise (fun a b => b.2 < a.2 ∨ (a.2 = b.2 ∧ strLexLe a.1 b.1 = true))

/-- A one-trigram index whose posting list holds `d2` before `d1`. -/
def idx5 : List (String × List String) := [("a b c", ["d2", "d1"])]

/-- A query consisting of that single trigram. -/
def tgs5 : List String := ["a b c"]

/-- C5 (counterexample): the code sorts the tally with a stable sort on
hit count only, so equal-count documents stay in posting-list
(insertion) order — here `d2` before `d1` — and are not re-ordered by
document_id lexical order as the claim states. -/
theorem trigram_ties_not_lexical :
    trigramQuery idx5 tgs5 = [("d2", 1), ("d1", 1)] ∧
    ¬ countLexOrdered (trigramQuery idx5 tgs5) := by
  have h : trigramQuery idx5 tgs5 = [("d2", 1), ("d1", 1)] := by decide
  refine ⟨h, ?_⟩
  rw [countLexOrdered, h]
  intro hp
  rcases List.pairwise_cons.mp hp with ⟨hrel, -⟩
  rcases hrel ("d1", 1) (List.mem_singleton.mpr rfl) with h1 | h2
  · exact absurd h1 (by decide)
  · exact absurd h2.2 (by decide)

/-- C5 (amended): the trigram query tallies per-document hit counts over
all posting lists of the query's trigrams and returns the tally sorted by
hit count descending; ties between equal hit counts keep the order in
which the documents were first encountered during posting-list iteration
(tally insertion order) rather than document_id lexical order. -/
theorem trigram_query_counts_sorted_stable (idx : List (String × List String))
    (tgs : List String) :
    (trigramQuery idx tgs).Perm (tallyList idx tgs) ∧
    (trigramQuery idx tgs).Pairwise (fun a b => b.2 ≤ a.2) ∧
    (∀ c, (trigramQuery idx tgs).filter (fun p => p.2 == c) =
      (tallyList idx tgs).filter (fun p => p.2 == c)) ∧
    (∀ d n, (d, n) ∈ tallyList idx tgs → n = hitCount idx tgs d) ∧
    (∀ d, 0 < hitCount idx tgs d → (d, hitCount idx tgs d) ∈ tallyList idx tgs) := by
  refine ⟨List.perm_insertionSort _ _, sortDesc_sorted _ _,
    fun c => filter_sortDesc _ c _, ?_, ?_⟩
  · intro d n hm
    have hc := countOf_eq_of_mem _ d n (goodTally_tallyList idx tgs).1 hm
    rw [← hc]
    exact countOf_tallyList idx tgs d
  · intro d h
    have h2 : 0 < countOf (tallyList idx tgs) d := by
      rw [countOf_tallyList]
      exact h
    have hm := mem_of_countOf_pos _ d h2
    rwa [countOf_tallyList] at hm

theorem trigram_query_counts_sorted_stable_witness :
    ("d2", 1) ∈ tallyList idx5 tgs5 ∧ 1 = hitCount idx5 tgs5 "d2" :=
  ⟨by decide,
    (trigram_query_counts_sorted_stable idx5 tgs5).2.2.2.1 "d2" 1 (by decide)⟩

/-! ### TrigramIndex build (modelled from the spec) -/

/-- Modelled from the spec: the TrigramIndex build step is missing from
src — `_load_or_create_token_database` builds a TF-IDF token-weight
table, while `match_documents_comprehensive` queries its
`inverted_index` argument as a trigram → posting-list mapping.  Spec
§4.3: slide a window of 3 consecutive words over each title and append
the owning document_id to that trigram key's posting list.  This step
appends one id under one key (a new key goes to the end, as in a dict). -/
def appendPosting (t id : String) :
    List (String × List String) → List (String × List String)
  | [] => [(t, [id])]
  | (k, ps) :: rest =>
      if k = t then (k, ps ++ [id]) :: rest else (k, ps) :: appendPosting t id rest

/-- Modelled from the spec: build the trigram inverted index over a
registry of `(document_id, title tokens)` pairs, in registry order. -/
def buildTrigramIndex (docs : List (String × List String)) :
    List (String × List String) :=
  docs.foldl
    (fun idx doc =>
      (extractTrigrams doc.2).foldl (fun ix t => appendPosting t doc.1 ix) idx)
    []

/-- Membership of `d` in the posting list stored for key `t`. -/
def postIn (idx : List (String × List String)) (t d : String) : Prop :=
  d ∈ (idx.lookup t).getD []

theorem postIn_appendPosting (t2 id2 t d : String) (idx : List (String × List String)) :
    postIn (appendPosting t2 id2 idx) t d ↔ (t = t2 ∧ d = id2) ∨ postIn idx t d := by
  induction idx with
  | nil =>
      by_cases h : t = t2
      · subst h
        simp [postIn, appendPosting, List.lookup]
      · have hb : (t == t2) = false := beq_eq_false_iff_ne.mpr h
        simp [postIn, appendPosting, List.lookup, hb, h]
  | cons p rest ih =>
      obtain ⟨k, ps⟩ := p
      by_cases hk : k = t2
      · subst hk
        by_cases ht : t = k
        · subst ht
          simp only [appendPosting, if_pos rfl, postIn, List.lookup, beq_self_eq_true,
            Option.getD_some, List.mem_append, List.mem_singleton]
          tauto
        · have hb : (t == k) = false := beq_eq_false_iff_ne.mpr ht
          simp [postIn, appendPosting, List.lookup, hb, ht]
      · by_cases ht : t = k
        · subst ht
          simp only [appendPosting, if_neg hk, postIn, List.lookup, beq_self_eq_true,
            Option.getD_some]
          have : ¬ (t = t2) := hk
          tauto
        · have hb : (t == k) = false := beq_eq_false_iff_ne.mpr ht
          simp only [appendPosting, if_neg hk, postIn, List.lookup, hb] at ih ⊢
          exact ih

theorem postIn_foldl (ts : List String) (id2 t d : String)
    (idx : List (String × List String)) :
    postIn (ts.foldl (fun ix t2 => appendPosting t2 id2 ix) idx) t d ↔
      (t ∈ ts ∧ d = id2) ∨ postIn idx t d := by
  induction ts generalizing idx with
  | nil => simp
  | cons t2 ts ih =>
      rw [List.foldl_cons, ih, postIn_appendPosting]
      simp only [List.mem_cons]
      tauto

theorem postIn_build (reg : List (String × List String)) (t d : String) :
    postIn (buildTrigramIndex reg) t d ↔
      ∃ e ∈ reg, e.1 = d ∧ t ∈ extractTrigrams e.2 := by
  have hnil : ¬ postIn [] t d := by simp [postIn, List.lookup]
  suffices h : ∀ idx, postIn (reg.foldl
      (fun idx doc =>
        (extractTrigrams doc.2).foldl (fun ix t => appendPosting t doc.1 ix) idx) idx) t d ↔
      (∃ e ∈ reg, e.1 = d ∧ t ∈ extractTrigrams e.2) ∨ postIn idx t d by
    rw [buildTrigramIndex, h []]
    simp [hnil]
  induction reg with
  | nil => intro idx; simp
  | cons e es ih =>
      intro idx
      rw [List.foldl_cons, ih, postIn_foldl]
      simp only [List.mem_cons]
      constructor
      · rintro (⟨e2, he2, hd, ht⟩ | (⟨ht, hd⟩ | hp))
        · exact Or.inl ⟨e2, Or.inr he2, hd, ht⟩
        · exact Or.inl ⟨e, Or.inl rfl, hd.symm, ht⟩
        · exact Or.inr hp
      · rintro (⟨e2, he2 | he2, hd, ht⟩ | hp)
        · subst he2
          exact Or.inr (Or.inl ⟨ht, hd.symm⟩)
        · exact Or.inl ⟨e2, he2, hd, ht⟩
        · exact Or.inr (Or.inr hp)

/-- A registry where `d2`'s title repeats every trigram of `d1`'s title. -/
def reg6 : List (String × List String) :=
  [("d1", ["a", "b", "c"]), ("d2", ["a", "b", "c", "a", "b", "c", "a", "b", "c"])]

/-- C6 (counterexample): querying the (spec-modelled) trigram index with
text identical to `d1`'s title ranks `d2` first, because `d2`'s title
contains the trigram `"a b c"` three times and out-hits the owner. -/
theorem trigram_title_query_not_first :
    ("d1", ["a", "b", "c"]) ∈ reg6 ∧
    (trigramQuery (buildTrigramIndex reg6)
      (extractTrigrams ["a", "b", "c"])).head?.map Prod.fst ≠ some "d1" := by
  decide

/-- C6 (amended): querying the trigram index with text identical to a
document's title ranks that document's id first, provided the title
yields at least one trigram and no other registry entry's title shares a
trigram with it. -/
theorem title_query_ranks_owner_first (reg : List (String × List String))
    (id : String) (toks : List String)
    (hmem : (id, toks) ∈ reg) (hne : extractTrigrams toks ≠ [])
    (hdisj : ∀ e ∈ reg, e.1 ≠ id → ∀ t ∈ extractTrigrams toks, t ∉ extractTrigrams e.2) :
    (trigramQuery (buildTrigramIndex reg) (extractTrigrams toks)).head?.map Prod.fst =
      some id := by
  obtain ⟨t0, ht0⟩ := List.exists_mem_of_ne_nil _ hne
  have hpost0 : postIn (buildTrigramIndex reg) t0 id :=
    (postIn_build reg t0 id).mpr ⟨(id, toks), hmem, rfl, ht0⟩
  have hcnt0 : 0 < (((buildTrigramIndex reg).lookup t0).getD []).count id :=
    List.count_pos_iff.mpr hpost0
  have hhit : 0 < hitCount (buildTrigramIndex reg) (extractTrigrams toks) id := by
    rw [hitCount]
    refine lt_of_lt_of_le hcnt0 (List.single_le_sum (by simp) _ ?_)
    exact List.mem_map.mpr ⟨t0, ht0, rfl⟩
  have hzero : ∀ d, d ≠ id →
      hitCount (buildTrigramIndex reg) (extractTrigrams toks) d = 0 := by
    intro d hd
    rw [hitCount]
    apply List.sum_eq_zero
    intro x hx
    obtain ⟨t, ht, rfl⟩ := List.mem_map.mp hx
    rw [List.count_eq_zero]
    intro hmem2
    obtain ⟨e, he, he1, he2⟩ := (postIn_build reg t d).mp hmem2
    exact hdisj e he (by rw [he1]; exact hd) t ht he2
  have hgood := goodTally_tallyList (buildTrigramIndex reg) (extractTrigrams toks)
  have hmem1 : (id, hitCount (buildTrigramIndex reg) (extractTrigrams toks) id) ∈
      tallyList (buildTrigramIndex reg) (extractTrigrams toks) := by
    have h2 : 0 < countOf (tallyList (buildTrigramIndex reg) (extractTrigrams toks)) id := by
      rw [countOf_tallyList]
      exact hhit
    have hm := mem_of_countOf_pos _ id h2
    rwa [countOf_tallyList] at hm
  have hall : ∀ p ∈ tallyList (buildTrigramIndex reg) (extractTrigrams toks),
      p = (id, hitCount (buildTrigramIndex reg) (extractTrigrams toks) id) := by
    rintro ⟨d, n⟩ hp
    have hn : countOf (tallyList (buildTrigramIndex reg) (extractTrigrams toks)) d = n :=
      countOf_eq_of_mem _ _ _ hgood.1 hp
    have hn2 : n = hitCount (buildTrigramIndex reg) (extractTrigrams toks) d := by
      rw [← hn, countOf_tallyList]
    have hn1 : 1 ≤ n := hgood.2 _ hp
    by_cases hd : d = id
    · subst hd
      rw [hn2]
    · exfalso
      rw [hn2, hzero d hd] at hn1
      omega
  have htl : tallyList (buildTrigramIndex reg) (extractTrigrams toks) =
      [(id, hitCount (buildTrigramIndex reg) (extractTrigrams toks) id)] := by
    cases htl0 : tallyList (buildTrigramIndex reg) (extractTrigrams toks) with
    | nil =>
        rw [htl0] at hmem1
        simp at hmem1
    | cons p rest =>
        have hp := hall p (htl0 ▸ List.mem_cons_self _ _)
        cases rest with
        | nil => rw [hp]
        | cons q rest2 =>
            have hq := hall q (htl0 ▸ List.mem_cons_of_mem _ (List.mem_cons_self _ _))
            exfalso
            have hnd := hgood.1
            rw [htl0, hp, hq] at hnd
            simp at hnd
  rw [trigramQuery, htl]
  rfl

/-- A one-document registry for the amended C6 witness. -/
def reg6w : List (String × List String) := [("d1", ["a", "b", "c"])]

theorem title_query_ranks_owner_first_witness :
    (("d1", ["a", "b", "c"]) ∈ reg6w ∧ extractTrigrams ["a", "b", "c"] ≠ []) ∧
    (trigramQuery (buildTrigramIndex reg6w)
      (extractTrigrams ["a", "b", "c"])).head?.map Prod.fst = some "d1" := by
  refine ⟨⟨by decide, by decide⟩,
    title_query_ranks_owner_first reg6w "d1" ["a", "b", "c"] (by decide) (by decide) ?_⟩
  intro e he hne t ht
  have he2 : e = ("d1", ["a", "b", "c"]) := by simpa [reg6w] using he
  rw [he2] at hne
  exact absurd rfl hne

/-! ### The coordinator `match_documents_comprehensive` with its trigram
fallback -/

/-- One `matches[mention].append((full_name, doc_id))` on an
insertion-ordered mapping (`defaultdict(list)` creates the key on first
append, at the end). -/
def addEntry (k : String) (pr : String × String) :
    List (String × List (String × String)) → List (String × List (String × String))
  | [] => [(k, [pr])]
  | (k2, vs) :: rest =>
      if k2 = k then (k2, vs ++ [pr]) :: rest else (k2, vs) :: addEntry k pr rest

/-- The per-mention phase of `match_documents_comprehensive` (the
rule-based cascade of exact / fuzzy / partial-id matching per extracted
mention), with the cascade itself abstracted as `pm`: the list of
`(Full Name, Document_ID)` pairs the cascade appends for a mention.
Every found pair is appended under its mention key, mentions in order. -/
def mentionPhase (pm : String → List (String × String)) (mentions : List String) :
    List (String × List (String × String)) :=
  mentions.foldl
    (fun acc men => (pm men).foldl (fun a pr => addEntry men pr a) acc) []

/-- The synthetic fallback key `f"Candidate Match for Trigram: {doc_id}"`. -/
def trigKey (doc_id : String) : String := "Candidate Match for Trigram: " ++ doc_id

/-- `df[df['Document_ID'].str.lower() == doc_id.lower()]`, first row. -/
def dfLookup (df : List DocRow) (doc_id : String) : Option DocRow :=
  df.find? (fun row => pyLower row.document_id == pyLower doc_id)

/-- `DocRetriever.match_documents_comprehensive`: run the per-mention
phase; exactly when no mention produced any match
(`not any(matches.values())`), add, for each of the top `top_n` trigram
candidates that is found in the registry, its
`(Full Name, Document_ID)` pair under the synthetic trigram key. -/
def matchDocumentsComprehensive (pm : String → List (String × String))
    (mentions : List String) (idx : List (String × List String))
    (tokens : List String) (df : List DocRow) (top_n : Nat) :
    List (String × List (String × String)) :=
  if (mentionPhase pm mentions).all (fun kv => kv.2.isEmpty) then
    ((trigramQuery idx (extractTrigrams tokens)).take top_n).foldl
      (fun acc p =>
        match dfLookup df p.1 with
        | some row => addEntry (trigKey p.1) (row.full_name, row.document_id) acc
        | none => acc)
      (mentionPhase pm mentions)
  else mentionPhase pm mentions

theorem addEntry_length (k : String) (pr : String × String)
    (l : List (String × List (String × String))) :
    (addEntry k pr l).length ≤ l.length + 1 := by
  induction l with
  | nil => simp [addEntry]
  | cons p rest ih =>
      obtain ⟨k2, vs⟩ := p
      by_cases h : k2 = k
      · simp [addEntry, h]
      · simp only [addEntry, if_neg h, List.length_cons]
        omega

theorem addEntry_mem (k : String) (pr : String × String)
    (l : List (String × List (String × String))) :
    ∀ kv ∈ addEntry k pr l, kv.1 = k ∨ kv ∈ l := by
  induction l with
  | nil =>
      intro kv hkv
      simp [addEntry] at hkv
      subst hkv
      exact Or.inl rfl
  | cons p rest ih =>
      obtain ⟨k2, vs⟩ := p
      intro kv hkv
      by_cases h : k2 = k
      · subst h
        simp only [addEntry, if_pos rfl] at hkv
        rcases List.mem_cons.mp hkv with h1 | h1
        · subst h1
          exact Or.inl rfl
        · exact Or.inr (List.mem_cons_of_mem _ h1)
      · simp only [addEntry, if_neg h] at hkv
        rcases List.mem_cons.mp hkv with h1 | h1
        · subst h1
          exact Or.inr (List.mem_cons_self _ _)
        · rcases ih kv h1 with h2 | h2
          · exact Or.inl h2
          · exact Or.inr (List.mem_cons_of_mem _ h2)

theorem addEntry_values_ne_nil (k : String) (pr : String × String)
    (l : List (String × List (String × String))) (h : ∀ kv ∈ l, kv.2 ≠ []) :
    ∀ kv ∈ addEntry k pr l, kv.2 ≠ [] := by
  induction l with
  | nil =>
      intro kv hkv
      simp [addEntry] at hkv
      subst hkv
      simp
  | cons p rest ih =>
      obtain ⟨k2, vs⟩ := p
      intro kv hkv
      by_cases hk : k2 = k
      · subst hk
        simp only [addEntry, if_pos rfl] at hkv
        rcases List.mem_cons.mp hkv with h1 | h1
        · subst h1
          simp
        · exact h kv (List.mem_cons_of_mem _ h1)
      · simp only [addEntry, if_neg hk] at hkv
        rcases List.mem_cons.mp hkv with h1 | h1
        · subst h1
          exact h (k2, vs) (List.mem_cons_self _ _)
        · exact ih (fun q hq => h q (List.mem_cons_of_mem _ hq)) kv h1

theorem foldl_addEntry_values_ne_nil (men : String) (prs : List (String × String))
    (acc : List (String × List (String × String))) (h : ∀ kv ∈ acc, kv.2 ≠ []) :
    ∀ kv ∈ prs.foldl (fun a pr => addEntry men pr a) acc, kv.2 ≠ [] := by
  induction prs generalizing acc with
  | nil => simpa using h
  | cons pr prs ih =>
      rw [List.foldl_cons]
      exact ih _ (addEntry_values_ne_nil men pr acc h)

theorem mentionPhase_values_ne_nil (pm : String → List (String × String))
    (mentions : List String) : ∀ kv ∈ mentionPhase pm mentions, kv.2 ≠ [] := by
  suffices h : ∀ acc, (∀ kv ∈ acc, kv.2 ≠ []) →
      ∀ kv ∈ mentions.foldl
        (fun acc men => (pm men).foldl (fun a pr => addEntry men pr a) acc) acc,
        kv.2 ≠ [] from h [] (by simp)
  induction mentions with
  | nil => intro acc hacc; simpa using hacc
  | cons men ms ih =>
      intro acc hacc
      rw [List.foldl_cons]
      exact ih _ (foldl_addEntry_values_ne_nil men (pm men) acc hacc)

theorem mentionPhase_eq_nil_of_all_empty (pm : String → List (String × String))
    (mentions : List String)
    (h : (mentionPhase pm mentions).all (fun kv => kv.2.isEmpty) = true) :
    mentionPhase pm mentions = [] := by
  cases hM : mentionPhase pm mentions with
  | nil => rfl
  | cons kv rest =>
      exfalso
      have h2 : kv.2 ≠ [] :=
        mentionPhase_values_ne_nil pm mentions kv (hM ▸ List.mem_cons_self _ _)
      rw [hM, List.all_cons, Bool.and_eq_true] at h
      exact h2 (List.isEmpty_iff.mp h.1)

theorem fallback_foldl_length (cands : List (String × Nat)) (df : List DocRow)
    (acc : List (String × List (String × String))) :
    (cands.foldl
      (fun acc p =>
        match dfLookup df p.1 with
        | some row => addEntry (trigKey p.1) (row.full_name, row.document_id) acc
        | none => acc) acc).length ≤ acc.length + cands.length := by
  induction cands generalizing acc with
  | nil => simp
  | cons p ps ih =>
      rw [List.foldl_cons]
      cases hd : dfLookup df p.1 with
      | none =>
          simp only [hd]
          have := ih acc
          simpa using le_trans this (by omega)
      | some row =>
          simp only [hd]
          refine le_trans (ih _) ?_
          have := addEntry_length (trigKey p.1) (row.full_name, row.document_id) acc
          simp only [List.length_cons]
          omega

theorem fallback_foldl_keys (cands : List (String × Nat)) (df : List DocRow)
    (acc : List (String × List (String × String)))
    (hacc : ∀ kv ∈ acc, ∃ i, kv.1 = trigKey i) :
    ∀ kv ∈ cands.foldl
      (fun acc p =>
        match dfLookup df p.1 with
        | some row => addEntry (trigKey p.1) (row.full_name, row.document_id) acc
        | none => acc) acc, ∃ i, kv.1 = trigKey i := by
  induction cands generalizing acc with
  | nil => simpa using hacc
  | cons p ps ih =>
      rw [List.foldl_cons]
      cases hd : dfLookup df p.1 with
      | none =>
          simp only [hd]
          exact ih acc hacc
      | some row =>
          simp only [hd]
          refine ih _ ?_
          intro kv hkv
          rcases addEntry_mem _ _ _ kv hkv with h1 | h1
          · exact ⟨p.1, h1⟩
          · exact hacc kv h1

theorem tallyList_nil_idx (tgs : List String) : tallyList [] tgs = [] := by
  suffices h : ∀ acc, tgs.foldl
      (fun acc t =>
        match List.lookup t ([] : List (String × List String)) with
        | some postings => postings.foldl (fun a d => bump d a) acc
        | none => acc) acc = acc from h []
  induction tgs with
  | nil => intro acc; rfl
  | cons t ts ih => intro acc; exact ih acc

/-- C8: the coordinator falls back to the trigram ranking exactly when
the merged per-mention result is empty after all mentions are processed,
in which case it returns at most `top_n` entries, all under synthetic
trigram-candidate keys; with zero extractable mentions and an empty
trigram index the returned mapping is empty. -/
theorem coordinator_trigram_fallback (pm : String → List (String × String))
    (mentions : List String) (idx : List (String × List String))
    (tokens : List String) (df : List DocRow) (top_n : Nat) :
    ((mentionPhase pm mentions).all (fun kv => kv.2.isEmpty) = false →
      matchDocumentsComprehensive pm mentions idx tokens df top_n =
        mentionPhase pm mentions) ∧
    ((mentionPhase pm mentions).all (fun kv => kv.2.isEmpty) = true →
      (matchDocumentsComprehensive pm mentions idx tokens df top_n).length ≤ top_n ∧
      ∀ kv ∈ matchDocumentsComprehensive pm mentions idx tokens df top_n,
        ∃ doc_id, kv.1 = trigKey doc_id) ∧
    (mentions = [] → idx = [] →
      matchDocumentsComprehensive pm mentions idx tokens df top_n = []) := by
  refine ⟨?_, ?_, ?_⟩
  · intro h
    rw [matchDocumentsComprehensive, if_neg (by simp [h])]
  · intro h
    have hM := mentionPhase_eq_nil_of_all_empty pm mentions h
    rw [matchDocumentsComprehensive, if_pos h, hM]
    constructor
    · refine le_trans (fallback_foldl_length _ df []) ?_
      simpa using List.length_take_le _ _
    · exact fallback_foldl_keys _ df [] (by simp)
  · intro hm hidx
    subst hm
    subst hidx
    have hM : mentionPhase pm [] = [] := rfl
    rw [matchDocumentsComprehensive, if_pos (by rw [hM]; rfl)]
    rw [hM, trigramQuery, tallyList_nil_idx]
    simp [sortDesc, List.insertionSort]

/-- A per-mention cascade that never finds anything. -/
def pmW : String → List (String × String) := fun _ => []

theorem coordinator_trigram_fallback_witness :
    (mentionPhase pmW ["x"]).all (fun kv => kv.2.isEmpty) = true ∧
    (matchDocumentsComprehensive pmW ["x"] [] [] [] 3).length ≤ 3 := by
  have h : (mentionPhase pmW ["x"]).all (fun kv => kv.2.isEmpty) = true := by decide
  exact ⟨h, ((coordinator_trigram_fallback pmW ["x"] [] [] [] 3).2.1 h).1⟩

/-! ### The mention extractor (`extract_document_mentions`)

The extraction regex is modelled at token level (sentence splitting and
word segmentation are external capabilities, so a sentence is a token
list): the mandatory `document_type` alternation, the optional number /
subtype / lazy extra-info / year groups, and the issuer relocation are
rendered in the pattern's preference order; group boundaries inside the
optional groups are approximated at token granularity, which preserves
the structure relevant here — a mention exists only where a type keyword
matched, and `document_type` is built from the matched keyword. -/

/-- Character-list test that `pat` starts the list. -/
def leadsWith : List Char → List Char → Bool
  | [], _ => true
  | _ :: _, [] => false
  | a :: as, b :: bs => a == b && leadsWith as bs

/-- Character-list substring test (Python `pat in s`). -/
def hasSub (pat : List Char) : List Char → Bool
  | [] => pat.isEmpty
  | c :: rest => leadsWith pat (c :: rest) || hasSub pat rest

/-- Python `pat in s`. -/
def strContains (s pat : String) : Bool := hasSub pat.data s.data

/-- Fuelled worker for `str.replace(pat, "")` (all non-overlapping
occurrences, left to right). -/
def removeAllAux (pat : List Char) : Nat → List Char → List Char
  | 0, l => l
  | _ + 1, [] => []
  | fuel + 1, c :: rest =>
      if !pat.isEmpty && leadsWith pat (c :: rest) then
        removeAllAux pat fuel ((c :: rest).drop pat.length)
      else c :: removeAllAux pat fuel rest

/-- Python `s.replace(pat, "")`. -/
def strRemoveAll (s pat : String) : String :=
  ⟨removeAllAux pat.data s.data.length s.data⟩

/-- Python `str.strip()`. -/
def pyStrip (s : String) : String :=
  ⟨((s.data.dropWhile Char.isWhitespace).reverse.dropWhile Char.isWhitespace).reverse⟩

/-- A token consisting of 1+ digits (`\d+` on a whole token). -/
def isDigitsToken (s : String) : Bool := !s.data.isEmpty && s.data.all Char.isDigit

/-- The ordered `document_type` alternation of the extraction pattern,
as lowercased token sequences; the greedy optional `liên tịch` of
`Thông tư(?: liên tịch)?` is tried before plain `Thông tư`. -/
def typeKeywords : List (List String) :=
  [["luật"], ["bộ", "luật"], ["pháp", "lệnh"], ["nghị", "định"],
   ["thông", "tư", "liên", "tịch"], ["thông", "tư"],
   ["nghị", "quyết"], ["quyết", "định"]]

/-- The `document_subtype` alternation `Luật|Bộ luật|Pháp lệnh`. -/
def subtypeKeywords : List (List String) :=
  [["luật"], ["bộ", "luật"], ["pháp", "lệnh"]]

/-- The `issuer_mapping` table, in source (dict-insertion) order. -/
def issuerMapping : List (String × String) :=
  [("bộ công thương", "bct"), ("bộ nội vụ", "bnv"), ("bộ giáo dục", "bgddt"),
   ("bộ tài chính", "btc"), ("bộ quốc phòng", "bqp"), ("bộ công an", "bca"),
   ("bộ y tế", "byt"), ("bộ thông tin", "btttt"), ("bộ ngoại giao", "bng"),
   ("bộ tư pháp", "btp"), ("bộ kế hoạch", "bkhdt"), ("bộ nông nghiệp", "bnnptnt"),
   ("bộ giao thông", "bgtvt"), ("bộ xây dựng", "bxd"), ("bộ tài nguyên", "btnmt"),
   ("bộ lao động", "bldtbxh"), ("bộ văn hóa", "bvhttdl"), ("bộ khoa học", "bkhcn"),
   ("ngân hàng nhà nước", "nhnn")]

/-- Case-insensitive match of the first alternative whose token sequence
starts the token list (regex alternation is ordered). -/
def matchKeyword (kws : List (List String)) (tokens : List String) :
    Option (List String) :=
  kws.findSome?
    (fun kw => if (tokens.take kw.length).map pyLower = kw then some kw else none)

/-- The optional `\d{1,4}` document-number group. -/
def parseNumber (rest : List String) : String × List String :=
  match rest with
  | n :: rs => if isDigitsToken n && decide (n.length ≤ 4) then (n, rs) else ("", n :: rs)
  | [] => ("", [])

/-- The optional `document_subtype` group. -/
def parseSubtype (rest : List String) : List String × List String :=
  match matchKeyword subtypeKeywords rest with
  | some sk => (sk, rest.drop sk.length)
  | none => ([], rest)

/-- The optional lazy `extra_info` group (`.+?` matches minimally, and
nothing after it forces expansion, so it takes one token). -/
def parseExtra (rest : List String) : String × List String :=
  match rest with
  | e :: rs => (e, rs)
  | [] => ("", [])

/-- The optional trailing `\d{4}` year group. -/
def parseYear (rest : List String) : String × List String :=
  match rest with
  | y :: rs => if isDigitsToken y && decide (y.length = 4) then (y, rs) else ("", y :: rs)
  | [] => ("", [])

/-- The issuer relocation loop: for each known issuing body contained in
the (lowered) extra info, record its abbreviation and strip the body text
from `extra_info` (the containment test lowers, the replacement does
not, as in the source). -/
def relocateIssuer (extra : String) : String × String :=
  issuerMapping.foldl
    (fun p entry =>
      if strContains (pyLower p.2) entry.1 then
        (entry.2, pyStrip (strRemoveAll p.2 entry.1))
      else p)
    ("", extra)

/-- `document_type` from the matched keyword, extended by the subtype
when one follows (`document_type += f" {document_subtype}"`). -/
def mkDocType (kw sub : List String) : String :=
  if sub.isEmpty then joinSpace kw else joinSpace kw ++ " " ++ joinSpace sub

/-- One attempt of the extraction pattern at the start of a token list:
the match, when the mandatory type group succeeds, together with the
number of tokens the whole match consumed. -/
def parseMentionAt (tokens : List String) : Option (Mention × Nat) :=
  match matchKeyword typeKeywords tokens with
  | none => none
  | some kw =>
      let pn := parseNumber (tokens.drop kw.length)
      let ps := parseSubtype pn.2
      let pe := parseExtra ps.2
      let pyr := parseYear pe.2
      let consumed := tokens.length - pyr.2.length
      let reloc := relocateIssuer pe.1
      some ({ mention := joinSpace (tokens.take consumed),
              document_type := mkDocType kw ps.1,
              document_number := pn.1,
              issue_year := pyr.1,
              issuer_body := reloc.1,
              extra_info := reloc.2 }, consumed)

/-- `finditer` over one sentence: try the pattern at every position,
resuming after the end of each match (the fuel, instantiated with the
token count, dominates the number of steps). -/
def scanAux : Nat → List String → List Mention
  | 0, _ => []
  | _ + 1, [] => []
  | fuel + 1, t :: ts =>
      match parseMentionAt (t :: ts) with
      | some (men, consumed) => men :: scanAux fuel (ts.drop (consumed - 1))
      | none => scanAux fuel ts

/-- `extract_document_mentions`: all matches of all sentences, in order
(duplicates retained). -/
def extractDocumentMentions (sentences : List (List String)) : List Mention :=
  (sentences.map (fun s => scanAux s.length s)).flatten

theorem findSome?_mem {α β : Type} (f : α → Option β) (l : List α) (b : β)
    (h : l.findSome? f = some b) : ∃ a ∈ l, f a = some b := by
  induction l with
  | nil => simp [List.findSome?] at h
  | cons a as ih =>
      cases hfa : f a with
      | some c =>
          rw [List.findSome?_cons, hfa] at h
          exact ⟨a, List.mem_cons_self _ _, hfa.trans h⟩
      | none =>
          rw [List.findSome?_cons, hfa] at h
          obtain ⟨a2, ha2, hfa2⟩ := ih h
          exact ⟨a2, List.mem_cons_of_mem _ ha2, hfa2⟩

theorem matchKeyword_mem (kws : List (List String)) (tokens : List String)
    (kw : List String) (h : matchKeyword kws tokens = some kw) : kw ∈ kws := by
  obtain ⟨a, ha, hfa⟩ := findSome?_mem _ _ _ h
  by_cases hc : (tokens.take a.length).map pyLower = a
  · rw [if_pos hc] at hfa
    rw [← Option.some.inj hfa]
    exact ha
  · rw [if_neg hc] at hfa
    exact absurd hfa (by simp)

theorem parseSubtype_mem (rest : List String) :
    (parseSubtype rest).1 = [] ∨ (parseSubtype rest).1 ∈ subtypeKeywords := by
  rw [parseSubtype]
  cases h : matchKeyword subtypeKeywords rest with
  | none => simp
  | some sk =>
      right
      exact matchKeyword_mem _ _ _ h

theorem parseMentionAt_type (tokens : List String) (m : Mention) (k : Nat)
    (h : parseMentionAt tokens = some (m, k)) :
    ∃ kw sub, kw ∈ typeKeywords ∧ (sub = [] ∨ sub ∈ subtypeKeywords) ∧
      m.document_type = mkDocType kw sub := by
  rw [parseMentionAt] at h
  cases hk : matchKeyword typeKeywords tokens with
  | none =>
      rw [hk] at h
      exact absurd h (by simp)
  | some kw =>
      rw [hk] at h
      simp only [Option.some.injEq] at h
      refine ⟨kw, (parseSubtype (parseNumber (tokens.drop kw.length)).2).1,
        matchKeyword_mem _ _ _ hk, parseSubtype_mem _, ?_⟩
      have hm : _ = m := congrArg Prod.fst h
      rw [← hm]

theorem scanAux_from_parse (fuel : Nat) (tokens : List String) :
    ∀ m ∈ scanAux fuel tokens, ∃ ts k, parseMentionAt ts = some (m, k) := by
  induction fuel generalizing tokens with
  | zero =>
      intro m hm
      simp [scanAux] at hm
  | succ fuel ih =>
      intro m hm
      cases tokens with
      | nil => simp [scanAux] at hm
      | cons t ts =>
          cases hp : parseMentionAt (t :: ts) with
          | none =>
              rw [scanAux, hp] at hm
              exact ih ts m hm
          | some pr =>
              obtain ⟨men, consumed⟩ := pr
              rw [scanAux, hp] at hm
              rcases List.mem_cons.mp hm with h1 | h1
              · subst h1
                exact ⟨t :: ts, consumed, hp⟩
              · exact ih _ m h1

theorem mkDocType_ne_empty (kw sub : List String) (hkw : kw ∈ typeKeywords)
    (hsub : sub = [] ∨ sub ∈ subtypeKeywords) : mkDocType kw sub ≠ "" := by
  rcases hsub with h | h
  · subst h
    fin_cases hkw <;> decide
  · fin_cases hkw <;> fin_cases h <;> decide

/-- C10: every mention returned by `extract_document_mentions` has a
non-empty `document_type` (the pattern's type group is mandatory), so its
total confidence in `match_documents` is at least 0.8 and the degenerate
all-weights-zero case can never arise from extractor output. -/
theorem extracted_mentions_nondegenerate (sentences : List (List String)) :
    ∀ m ∈ extractDocumentMentions sentences,
      m.document_type ≠ "" ∧ (4/5 : ℚ) ≤ totalConfidence m ∧
        0 < totalConfidence m := by
  intro m hm
  rw [extractDocumentMentions, List.mem_flatten] at hm
  obtain ⟨l, hl, hm2⟩ := hm
  rw [List.mem_map] at hl
  obtain ⟨s, -, rfl⟩ := hl
  obtain ⟨ts, k, hp⟩ := scanAux_from_parse _ _ m hm2
  obtain ⟨kw, sub, hkw, hsub, hdt⟩ := parseMentionAt_type ts m k hp
  have hne : m.document_type ≠ "" := by
    rw [hdt]
    exact mkDocType_ne_empty kw sub hkw hsub
  have hne2 : m.fieldVal .documentType ≠ "" := hne
  have h1 : confidenceScore m .documentType = 8/10 := by
    rw [confidenceScore, baseConfidence, if_neg hne2]
    norm_num [reliabilityFactor]
  have h2 := confidenceScore_nonneg m .documentNumber
  have h3 := confidenceScore_nonneg m .issueYear
  have h4 := confidenceScore_nonneg m .issuerBody
  have h5 := confidenceScore_nonneg m .extraInfo
  refine ⟨hne, ?_, ?_⟩ <;> rw [totalConfidence_eq] <;> linarith

/-- The mention the extractor produces from
`["Theo", "Bộ", "luật", "dân", "sự", "2015"]`. -/
def m10 : Mention :=
  { mention := "Bộ luật dân", document_type := "bộ luật", document_number := "",
    issue_year := "", issuer_body := "", extra_info := "dân" }

theorem extracted_mentions_nondegenerate_witness :
    m10 ∈ extractDocumentMentions [["Theo", "Bộ", "luật", "dân", "sự", "2015"]] ∧
    (m10.document_type ≠ "" ∧ (4/5 : ℚ) ≤ totalConfidence m10 ∧
      0 < totalConfidence m10) := by
  have hm : m10 ∈ extractDocumentMentions [["Theo", "Bộ", "luật", "dân", "sự", "2015"]] := by
    decide
  exact ⟨hm, extracted_mentions_nondegenerate _ m10 hm⟩

end LegalQA
